import Mathlib

/-!
Shallow embedding of the paper-trading resolution core of
`polymarket-simmer-bots`, covering the two resolver scripts:

* `scripts/bybit_sr_resolve.py` — bar-scanning resolver: fill detection,
  stop/target race with conservative tie-break, idempotency store keyed by
  a composite of the signal's fields, last-200-signals window.
* `scripts/btc15m_arb_resolve.py` — binary-contract resolver: journal-line
  filtering, market-status gating, deterministic fill-probability model,
  `paper_pnl` accounting, idempotency store keyed by `market_id:ts`.

Prices and sizes are Python floats in the source; they are embedded as `ℚ`
(the claims under scrutiny concern comparisons and exact ring identities,
which the rational embedding reflects faithfully).  External effects are
explicit parameters: the kline/market HTTP fetch is a function argument
returning `Except Unit _` (errors model timeouts/HTTP failures), journal
lines arrive already classified by the ambient JSON parser (a line is
blank, malformed, or a parsed record), and Python's process-seeded builtin
`hash` is a function argument `String → Int`.  Timestamps written into
result rows (`utc_now_iso`) and pure pass-through echo fields
(`rr`, `size_btc`, `risk_usd`, `question`) are omitted from rows, and the
kline query-window arithmetic (`candle_ts`, `start_ms`, `end_ms`,
symbol/interval) is absorbed into the fetch capability, which receives the
whole signal.
-/

/-- One OHLC candle, in the tuple order `(ts, o, h, l, c)` built at
`bybit_sr_resolve.py` lines 143-147. -/
structure Candle where
  ts : Int
  o : ℚ
  hi : ℚ
  lo : ℚ
  c : ℚ
  deriving Repr, DecidableEq

/-- The fill test of `bybit_sr_resolve.py` line 154: `lo <= entry <= hi`,
bounds inclusive. -/
def touched (entry : ℚ) (b : Candle) : Bool :=
  decide (b.lo ≤ entry) && decide (entry ≤ b.hi)

/-- Fill detector, `bybit_sr_resolve.py` lines 149-156: index of the first
candle whose range contains the entry price; `none` when no candle (or an
empty window) does. -/
def findFill (entry : ℚ) : List Candle → Option Nat
  | [] => none
  | b :: rest =>
      if touched entry b then some 0
      else (findFill entry rest).map (· + 1)

/-- Stop-hit test, `bybit_sr_resolve.py` lines 161-165: LONG stop is hit
iff `low <= sl`; any other side takes the SHORT branch, `high >= sl`. -/
def hitSL (side : String) (sl : ℚ) (b : Candle) : Bool :=
  if side == "LONG" then decide (b.lo ≤ sl) else decide (b.hi ≥ sl)

/-- Target-hit test, `bybit_sr_resolve.py` lines 161-166: LONG target is
hit iff `high >= tp`; any other side takes the SHORT branch, `low <= tp`. -/
def hitTP (side : String) (tp : ℚ) (b : Candle) : Bool :=
  if side == "LONG" then decide (b.hi ≥ tp) else decide (b.lo ≤ tp)

/-- Race resolver, `bybit_sr_resolve.py` lines 158-176: scan from the fill
bar onward; both hit → `loss` (conservative), stop only → `loss`, target
only → `win`, and stop at the first hit.  When the scan exhausts the bars
the Python variable `outcome` keeps its initial value `"unfilled"` (line
150) — the source conflates this with the never-filled case. -/
def race (side : String) (sl tp : ℚ) : List Candle → String
  | [] => "unfilled"
  | b :: rest =>
      if hitSL side sl b && hitTP side tp b then "loss"
      else if hitSL side sl b then "loss"
      else if hitTP side tp b then "win"
      else race side sl tp rest

/-- Whole per-signal outcome, `bybit_sr_resolve.py` lines 149-176: fill
detection, then the race scanned from the fill bar (inclusive). -/
def resolveOutcome (side : String) (entry sl tp : ℚ) (candles : List Candle) : String :=
  match findFill entry candles with
  | none => "unfilled"
  | some i => race side sl tp (candles.drop i)

/-- Fill-probability model, `btc15m_arb_resolve.py` lines 193-197: linear
bands on edge and confidence, each clamped to `[0,1]`, combined and then
clamped to `[0.02, 0.60]`. -/
def p_fill_model (edge conf : ℚ) : ℚ :=
  let p_edge := max 0 (min 1 ((edge - 2/100) / (6/100)))
  let p_conf := max 0 (min 1 ((conf - 60/100) / (20/100)))
  let p := 5/100 + 55/100 * (6/10 * p_edge + 4/10 * p_conf)
  max (2/100) (min (60/100) p)

/-- The uniform draw of `btc15m_arb_resolve.py` lines 200-201:
`abs(hash(key)) % 10_000 / 10_000.0`. -/
def uOfHash (h : Int) : ℚ := ((h.natAbs % 10000 : Nat) : ℚ) / 10000

/-- The deterministic-coin-flip block, `btc15m_arb_resolve.py` lines
188-202, with Python's process-seeded builtin `hash` made explicit as the
argument `hashFn`.  Returns `(p_fill, filled)`. -/
def fillDraw (hashFn : String → Int) (key : String) (edge conf : ℚ) : ℚ × Bool :=
  let p := p_fill_model edge conf
  let u := uOfHash (hashFn key)
  (p, decide (u < p))

/-- Return shape of `paper_pnl`, `btc15m_arb_resolve.py` lines 101-107. -/
structure PnlRes where
  notional : ℚ
  fee : ℚ
  pnl_gross : ℚ
  pnl_net : ℚ
  win : ℚ
  deriving Repr, DecidableEq

/-- The win test of `btc15m_arb_resolve.py` line 94:
`outcome_up if side == "YES" else (not outcome_up)`. -/
def pnlWin (side : String) (outcome_up : Bool) : Bool :=
  if side == "YES" then outcome_up else !outcome_up

/-- PnL model, `btc15m_arb_resolve.py` lines 84-107. -/
def paper_pnl (side : String) (price shares : ℚ) (outcome_up : Bool)
    (fee_rate_bps : ℚ) : PnlRes :=
  let notional := shares * price
  let fee := notional * (fee_rate_bps / 10000)
  let win := pnlWin side outcome_up
  let gross := if win then shares * (1 - price) else -(shares * price)
  { notional := notional
    fee := fee
    pnl_gross := gross
    pnl_net := gross - fee
    win := if win then 1 else 0 }

/-- A journal signal row, `bybit_sr_resolve.py` lines 123-131: the fields
the resolver reads from each `type == "signal"` record.  The echo-only
fields `rr`, `size_btc`, `risk_usd` and the fetch-window field `candle_ts`
are absorbed into the output/fetch abstractions. -/
structure Sig where
  ts : String
  side : String
  entry : ℚ
  sl : ℚ
  tp : ℚ
  deriving Repr, DecidableEq

/-- The idempotency key of `bybit_sr_resolve.py` line 124:
`f"{ts}:{side}:{entry}:{sl}:{tp}"`, embedded as the tuple of its
components (Python's float `repr` inside an f-string is injective, so the
formatted string and the tuple identify the same signals). -/
abbrev BKey := String × String × ℚ × ℚ × ℚ

def sigKey (s : Sig) : BKey := (s.ts, s.side, s.entry, s.sl, s.tp)

/-- The idempotency store of `bybit_sr_resolve.py` (`resolved` dict):
key → outcome summary, insertion-ordered. -/
abbrev BStore := List (BKey × String)

/-- A written Resolution Record, `bybit_sr_resolve.py` lines 178-192
(`resolved_ts`, `symbol`, `interval` and the echo fields omitted, see the
header comment). -/
structure OutRow where
  signal_ts : String
  side : String
  entry : ℚ
  sl : ℚ
  tp : ℚ
  outcome : String
  win : Nat
  deriving Repr, DecidableEq

def mkOutRow (s : Sig) (outcome : String) : OutRow :=
  { signal_ts := s.ts, side := s.side, entry := s.entry, sl := s.sl
    tp := s.tp, outcome := outcome
    win := if outcome == "win" then 1 else 0 }

/-- The idempotency key as reconstructible from a written Resolution
Record's echoed fields (`bybit_sr_resolve.py` lines 124 and 180-186). -/
def rowKeyB (row : OutRow) : BKey :=
  (row.signal_ts, row.side, row.entry, row.sl, row.tp)

/-- One iteration of the resolve loop, `bybit_sr_resolve.py` lines
123-196: skip when the key is already in the store, otherwise fetch
candles (the fetch may fail with a timeout/HTTP error, which the source
does not catch — it propagates and aborts the run), resolve, append the
Resolution Record and mark the key. -/
def processSigE (fetch : Sig → Except Unit (List Candle))
    (acc : List OutRow × BStore) (s : Sig) :
    Except Unit (List OutRow × BStore) :=
  if sigKey s ∈ acc.2.map Prod.fst then .ok acc
  else
    match fetch s with
    | .error e => .error e
    | .ok candles =>
        let outcome := resolveOutcome s.side s.entry s.sl s.tp candles
        .ok (acc.1 ++ [mkOutRow s outcome],
             acc.2 ++ [(sigKey s, outcome)])

def bybitLoop (fetch : Sig → Except Unit (List Candle)) :
    List Sig → List OutRow × BStore → Except Unit (List OutRow × BStore)
  | [], acc => .ok acc
  | s :: rest, acc =>
      match processSigE fetch acc s with
      | .error e => .error e
      | .ok acc' => bybitLoop fetch rest acc'

/-- The resolve loop over `signals[-200:]`, `bybit_sr_resolve.py` line
123.  Python's `xs[-200:]` is the whole list when it has at most 200
elements, else the last 200 — i.e. `xs.drop (xs.length - 200)` with
truncated subtraction. -/
def bybitRunE (fetch : Sig → Except Unit (List Candle)) (res0 : BStore)
    (signals : List Sig) : Except Unit (List OutRow × BStore) :=
  bybitLoop fetch (signals.drop (signals.length - 200)) ([], res0)

/-- A raw journal line as the ambient JSON parser classifies it:
blank (skipped at `bybit_sr_resolve.py` line 106), malformed
(`json.loads` raises), or a parsed record with its `type` field. -/
inductive JLine where
  | blank : JLine
  | malformed : JLine
  | record (type_ : String) (s : Sig) : JLine
  deriving Repr, DecidableEq

/-- The journal-loading loop, `bybit_sr_resolve.py` lines 103-111: skip
blank lines, `json.loads` each remaining line (NOT wrapped in
`try`/`except` — a malformed line raises and the whole run aborts), keep
records with `type == "signal"`. -/
def loadSignalsBybit : List JLine → Except Unit (List Sig)
  | [] => .ok []
  | .blank :: rest => loadSignalsBybit rest
  | .malformed :: _ => .error ()
  | .record t s :: rest =>
      match loadSignalsBybit rest with
      | .error e => .error e
      | .ok tail => .ok (if t == "signal" then s :: tail else tail)

/-- Whole-run model of `bybit_sr_resolve.py` `main`: load the signals
from the journal, then run the resolve loop. -/
def bybitMainE (fetch : Sig → Except Unit (List Candle)) (res0 : BStore)
    (lines : List JLine) : Except Unit (List OutRow × BStore) :=
  match loadSignalsBybit lines with
  | .error e => .error e
  | .ok signals => bybitRunE fetch res0 signals

/-- A journal intent row for `btc15m_arb_resolve.py`, lines 134-191: the
fields the resolver reads (`action`, `market_id`, `ts`, `side`, `price`,
`shares`, `edge`, `conf`); `question` is echo-only and omitted.  A missing
`market_id` is the empty string (falsy in the source's check). -/
structure Intent where
  ts : String
  market_id : String
  action : String
  side : String
  price : ℚ
  shares : ℚ
  edge : ℚ
  conf : ℚ
  deriving Repr, DecidableEq

/-- A journal line of the btc15m journal, classified by the ambient JSON
parser: blank, malformed (`json.loads` raises, caught at lines 129-132),
or a parsed record. -/
inductive BLine where
  | blank : BLine
  | malformed : BLine
  | parsed (r : Intent) : BLine
  deriving Repr, DecidableEq

/-- The market response as consumed after `btc15m_arb_resolve.py` lines
148-186: its `status`, the up/down resolution, and the fee rate.  The
JSON normalization of the raw `outcome`/`outcome_name` fields into an
optional boolean (lines 158-177) is abstracted into `outcome_up`. -/
structure MarketInfo where
  status : String
  outcome_up : Option Bool
  fee_rate_bps : ℚ
  deriving Repr, DecidableEq

/-- Status gate, `btc15m_arb_resolve.py` lines 153-156. -/
def statusTerminal (s : String) : Bool :=
  ["resolved", "closed", "settled"].contains s.toLower

/-- A written btc15m Resolution Record, lines 205-225 / 233-249
(`resolved_ts`, `question`, `outcome_name` omitted, see header). -/
structure BtcRow where
  intent_ts : String
  market_id : String
  side : String
  entry_price : ℚ
  shares : ℚ
  status : String
  outcome_up : Bool
  fee_rate_bps : ℚ
  filled : Bool
  p_fill : ℚ
  u : ℚ
  notional : ℚ
  fee : ℚ
  pnl_gross : ℚ
  pnl_net : ℚ
  win : ℚ
  deriving Repr, DecidableEq

def btcRowKey (row : BtcRow) : String := row.market_id ++ ":" ++ row.intent_ts

/-- The idempotency store of `btc15m_arb_resolve.py` (`resolved` dict):
key `market_id:ts` → summary `(pnl_net, win)`. -/
abbrev CStore := List (String × ℚ × ℚ)

structure BtcState where
  outs : List BtcRow
  resolved : CStore
  deriving Repr, DecidableEq

/-- One iteration of the btc15m resolve loop, `btc15m_arb_resolve.py`
lines 124-253, with the market endpoint `api` (whose failures the source
catches per-intent with `try`/`except`/`continue`) and Python's builtin
`hash` (`hashFn`) explicit.  Skips, in source order: blank lines,
malformed lines, irrelevant actions, missing market ids, keys already in
the store, failed fetches, non-terminal statuses, undeterminable
outcomes; then draws the paper fill and writes one record. -/
def btcStep (api : String → Except Unit MarketInfo) (hashFn : String → Int)
    (st : BtcState) (line : BLine) : BtcState :=
  match line with
  | .blank => st
  | .malformed => st
  | .parsed r =>
      if !(r.action == "PAPER_INTENT" || r.action == "TRADE_INTENT") then st
      else if r.market_id == "" then st
      else
        let key := r.market_id ++ ":" ++ r.ts
        if key ∈ st.resolved.map Prod.fst then st
        else
          match api r.market_id with
          | .error _ => st
          | .ok mk =>
              if !statusTerminal mk.status then st
              else
                match mk.outcome_up with
                | none => st
                | some up =>
                    let d := fillDraw hashFn key r.edge r.conf
                    if !d.2 then
                      let row : BtcRow :=
                        { intent_ts := r.ts, market_id := r.market_id
                          side := r.side, entry_price := r.price
                          shares := r.shares, status := mk.status
                          outcome_up := up, fee_rate_bps := mk.fee_rate_bps
                          filled := false, p_fill := d.1
                          u := uOfHash (hashFn key)
                          notional := 0, fee := 0, pnl_gross := 0
                          pnl_net := 0, win := 0 }
                      { outs := st.outs ++ [row]
                        resolved := st.resolved ++ [(key, 0, 0)] }
                    else
                      let pl := paper_pnl r.side r.price r.shares up
                        mk.fee_rate_bps
                      let row : BtcRow :=
                        { intent_ts := r.ts, market_id := r.market_id
                          side := r.side, entry_price := r.price
                          shares := r.shares, status := mk.status
                          outcome_up := up, fee_rate_bps := mk.fee_rate_bps
                          filled := true, p_fill := d.1
                          u := uOfHash (hashFn key)
                          notional := pl.notional, fee := pl.fee
                          pnl_gross := pl.pnl_gross
                          pnl_net := pl.pnl_net, win := pl.win }
                      { outs := st.outs ++ [row]
                        resolved := st.resolved ++
                          [(key, pl.pnl_net, pl.win)] }

def btcLoop (api : String → Except Unit MarketInfo)
    (hashFn : String → Int) : List BLine → BtcState → BtcState
  | [], st => st
  | l :: rest, st => btcLoop api hashFn rest (btcStep api hashFn st l)

/-- Whole-run model of `btc15m_arb_resolve.py` `main`'s journal loop,
starting from the loaded store. -/
def btcRun (api : String → Except Unit MarketInfo) (hashFn : String → Int)
    (res0 : CStore) (lines : List BLine) : BtcState :=
  btcLoop api hashFn lines { outs := [], resolved := res0 }

/-! ## Helper lemmas -/

theorem race_cons_hit (side : String) (sl tp : ℚ) (b : Candle)
    (rest : List Candle)
    (hb : hitSL side sl b = true ∨ hitTP side tp b = true) :
    race side sl tp (b :: rest) = (if hitSL side sl b then "loss" else "win") := by
  rcases hb with h | h <;>
    cases hSL : hitSL side sl b <;> cases hTP : hitTP side tp b <;>
      simp_all [race]

theorem race_skip (side : String) (sl tp : ℚ) (pre tail : List Candle)
    (hpre : ∀ a ∈ pre, hitSL side sl a = false ∧ hitTP side tp a = false) :
    race side sl tp (pre ++ tail) = race side sl tp tail := by
  induction pre with
  | nil => rfl
  | cons a pre ih =>
      have ha := hpre a (List.mem_cons_self a pre)
      simp only [List.cons_append, race, ha.1, ha.2]
      exact ih fun x hx => hpre x (List.mem_cons_of_mem a hx)

/-! ## Claim theorems -/

/-- C2: from the fill bar onward, the race outcome is decided at the first
bar where the side-dependent stop or target condition holds — both
conditions → loss, stop only → loss, target only → win — and no later bar
changes the outcome; the per-side hit conditions are exactly
LONG: low ≤ stop / high ≥ target, SHORT: high ≥ stop / low ≤ target. -/
theorem race_first_hit :
    (∀ (side : String) (sl tp : ℚ) (pre : List Candle) (b : Candle)
        (post post' : List Candle),
        (∀ a ∈ pre, hitSL side sl a = false ∧ hitTP side tp a = false) →
        (hitSL side sl b = true ∨ hitTP side tp b = true) →
        race side sl tp (pre ++ b :: post)
            = (if hitSL side sl b then "loss" else "win")
          ∧ race side sl tp (pre ++ b :: post)
            = race side sl tp (pre ++ b :: post'))
  ∧ (∀ (sl : ℚ) (b : Candle),
      hitSL "LONG" sl b = decide (b.lo ≤ sl)
        ∧ hitSL "SHORT" sl b = decide (b.hi ≥ sl))
  ∧ (∀ (tp : ℚ) (b : Candle),
      hitTP "LONG" tp b = decide (b.hi ≥ tp)
        ∧ hitTP "SHORT" tp b = decide (b.lo ≤ tp)) := by
  refine ⟨?_, ?_, ?_⟩
  · intro side sl tp pre b post post' hpre hb
    constructor
    · rw [race_skip side sl tp pre (b :: post) hpre]
      exact race_cons_hit side sl tp b post hb
    · rw [race_skip side sl tp pre (b :: post) hpre,
          race_skip side sl tp pre (b :: post') hpre,
          race_cons_hit side sl tp b post hb,
          race_cons_hit side sl tp b post' hb]
  · intro sl b; exact ⟨by simp [hitSL], by simp [hitSL]⟩
  · intro tp b; exact ⟨by simp [hitTP], by simp [hitTP]⟩

/-- Witness for C2: the spec's tie-break example — LONG, stop 95, target
110, one bar with low 90 and high 115 (both thresholds breached): the
outcome is loss, and appending a later euphoric bar changes nothing. -/
theorem race_first_hit_witness :
    race "LONG" 95 110 ([] ++ (⟨0, 100, 115, 90, 100⟩ : Candle) :: [])
        = (if hitSL "LONG" 95 ⟨0, 100, 115, 90, 100⟩ then "loss" else "win")
      ∧ race "LONG" 95 110 ([] ++ (⟨0, 100, 115, 90, 100⟩ : Candle) :: [])
        = race "LONG" 95 110
            ([] ++ (⟨0, 100, 115, 90, 100⟩ : Candle) :: [⟨1, 0, 200, 150, 0⟩]) :=
  race_first_hit.1 "LONG" 95 110 [] ⟨0, 100, 115, 90, 100⟩ [] [⟨1, 0, 200, 150, 0⟩]
    (by simp) (Or.inl (by norm_num [hitSL]))

/-- C3: the fill detector fills at the first bar whose inclusive
`[low, high]` range contains the entry price; when no bar of the window
(in particular of the empty window) contains it, the intent is unfilled;
the touch test is boundary-inclusive. -/
theorem fill_detector_first_touch :
    (∀ (entry : ℚ), findFill entry [] = none)
  ∧ (∀ (entry : ℚ) (pre : List Candle) (b : Candle) (post : List Candle),
      (∀ a ∈ pre, touched entry a = false) → touched entry b = true →
      findFill entry (pre ++ b :: post) = some pre.length)
  ∧ (∀ (entry : ℚ) (bars : List Candle),
      (∀ a ∈ bars, touched entry a = false) → findFill entry bars = none)
  ∧ (∀ (entry : ℚ) (b : Candle),
      touched entry b = true ↔ (b.lo ≤ entry ∧ entry ≤ b.hi)) := by
  refine ⟨fun _ => rfl, ?_, ?_, ?_⟩
  · intro entry pre b post hpre hb
    induction pre with
    | nil => simp [findFill, hb]
    | cons a pre ih =>
        have ha := hpre a (List.mem_cons_self a pre)
        have ih' := ih fun x hx => hpre x (List.mem_cons_of_mem a hx)
        simp [List.cons_append, findFill, ha, ih']
  · intro entry bars hbars
    induction bars with
    | nil => rfl
    | cons a bars ih =>
        have ha := hbars a (List.mem_cons_self a bars)
        have ih' := ih fun x hx => hbars x (List.mem_cons_of_mem a hx)
        simp [findFill, ha, ih']
  · intro entry b
    simp [touched]

/-- Witness for C3: the spec's inclusivity example — entry 100 against a
bar with low 100 and high 105 is filled at index 0. -/
theorem fill_detector_first_touch_witness :
    findFill 100 ([] ++ (⟨0, 0, 105, 100, 0⟩ : Candle) :: []) = some 0 :=
  fill_detector_first_touch.2.1 100 [] ⟨0, 0, 105, 100, 0⟩ []
    (by simp) (by norm_num [touched])

/-- C5: `paper_pnl` computes notional, fee, gross, net and the win flag by
the documented formulas, and the two round-trip instances evaluate to
gross = net = 6 with win 1 and gross = net = -4 with win 0. -/
theorem paper_pnl_spec :
    (∀ (side : String) (price shares fee_rate_bps : ℚ) (up : Bool),
        (paper_pnl side price shares up fee_rate_bps).notional = shares * price
      ∧ (paper_pnl side price shares up fee_rate_bps).fee
          = shares * price * (fee_rate_bps / 10000)
      ∧ (paper_pnl side price shares up fee_rate_bps).pnl_gross
          = (if pnlWin side up then shares * (1 - price) else -(shares * price))
      ∧ (paper_pnl side price shares up fee_rate_bps).pnl_net
          = (paper_pnl side price shares up fee_rate_bps).pnl_gross
            - (paper_pnl side price shares up fee_rate_bps).fee)
  ∧ (∀ up : Bool, pnlWin "YES" up = up ∧ pnlWin "NO" up = !up)
  ∧ paper_pnl "YES" (2/5) 10 true 0 = ⟨4, 0, 6, 6, 1⟩
  ∧ paper_pnl "YES" (2/5) 10 false 0 = ⟨4, 0, -4, -4, 0⟩ := by
  refine ⟨fun side price shares bps up => ⟨rfl, rfl, rfl, rfl⟩, ?_, ?_, ?_⟩
  · intro up; exact ⟨by simp [pnlWin], by simp [pnlWin]⟩
  · norm_num [paper_pnl, pnlWin]
  · norm_num [paper_pnl, pnlWin]

/-- C6 (refutation of cross-run determinism): `p_fill` is indeed a pure
function of edge and confidence, but the `filled` draw goes through the
ambient Python `hash`, whose value for a given string varies with the
per-process hash seed; two hash valuations that different runs may realize
give the same `p_fill` yet opposite `filled` for the identical key, edge
and confidence. -/
theorem fill_draw_hash_seed_dependent :
    (fillDraw (fun _ => 0) "mkt1:2026-01-01T00:00:00Z" (8/100) (8/10)).1
      = (fillDraw (fun _ => 9999) "mkt1:2026-01-01T00:00:00Z" (8/100) (8/10)).1
  ∧ (fillDraw (fun _ => 0) "mkt1:2026-01-01T00:00:00Z" (8/100) (8/10)).2 = true
  ∧ (fillDraw (fun _ => 9999) "mkt1:2026-01-01T00:00:00Z" (8/100) (8/10)).2
      = false := by
  norm_num [fillDraw, p_fill_model, uOfHash]

/-- C9: for every edge and confidence input, the fill probability computed
by the model lies in the closed interval [0.02, 0.60]. -/
theorem p_fill_clamped (edge conf : ℚ) :
    2/100 ≤ p_fill_model edge conf ∧ p_fill_model edge conf ≤ 60/100 := by
  unfold p_fill_model
  exact ⟨le_max_left _ _, max_le (by norm_num) (min_le_left _ _)⟩

theorem btcLoop_append (api : String → Except Unit MarketInfo)
    (hashFn : String → Int) (xs ys : List BLine) (st : BtcState) :
    btcLoop api hashFn (xs ++ ys) st = btcLoop api hashFn ys (btcLoop api hashFn xs st) := by
  induction xs generalizing st with
  | nil => rfl
  | cons l rest ih =>
      simp only [List.cons_append, btcLoop, List.append_eq]
      exact ih (btcStep api hashFn st l)

theorem btcStep_apiError (api : String → Except Unit MarketInfo)
    (hashFn : String → Int) (st : BtcState) (r : Intent)
    (h : api r.market_id = .error ()) :
    btcStep api hashFn st (BLine.parsed r) = st := by
  simp only [btcStep, h]
  split_ifs <;> rfl

/-- C7 counterexample: a bybit journal holding one malformed line and one
well-formed signal does not complete — the unguarded `json.loads` aborts
the run before any intent is processed. -/
theorem malformed_aborts_bybit_run :
    bybitMainE (fun _ => .ok [⟨0, 100, 101, 99, 100⟩]) []
      [JLine.malformed, JLine.record "signal" ⟨"t0", "LONG", 100, 90, 110⟩]
      = .error () := rfl

/-- C7 amended: the btc15m journal reader skips malformed lines without
failing the run — the run over a journal containing a malformed line
equals the run over the journal with that line removed, so the remaining
well-formed intents are processed — while the bybit reader aborts: any
journal containing a malformed line makes its signal-loading step (and so
the run) fail. -/
theorem malformed_line_policy :
    (∀ (api : String → Except Unit MarketInfo) (hashFn : String → Int)
        (res0 : CStore) (pre post : List BLine),
        btcRun api hashFn res0 (pre ++ BLine.malformed :: post)
          = btcRun api hashFn res0 (pre ++ post))
  ∧ (∀ lines : List JLine, JLine.malformed ∈ lines →
        loadSignalsBybit lines = .error ()) := by
  constructor
  · intro api hashFn res0 pre post
    unfold btcRun
    rw [btcLoop_append, btcLoop_append]
    rfl
  · intro lines h
    induction lines with
    | nil => cases h
    | cons l rest ih =>
        cases l with
        | blank =>
            have : JLine.malformed ∈ rest := by
              rcases List.mem_cons.mp h with h' | h'
              · cases h'
              · exact h'
            simpa [loadSignalsBybit] using ih this
        | malformed => rfl
        | record t s =>
            have : JLine.malformed ∈ rest := by
              rcases List.mem_cons.mp h with h' | h'
              · cases h'
              · exact h'
            simp [loadSignalsBybit, ih this]

/-- Witness for C7's amended theorem: a concrete journal with a blank line
followed by a malformed line fails to load in the bybit variant. -/
theorem malformed_line_policy_witness :
    loadSignalsBybit [JLine.blank, JLine.malformed] = .error () :=
  malformed_line_policy.2 [JLine.blank, JLine.malformed] (by simp)

/-- C8 counterexample: a transient bar-fetch failure IS fatal in the bybit
resolver — with one pending signal and a failing kline fetch, the whole
run aborts instead of degrading to "no new data". -/
theorem fetch_failure_aborts_bybit_run :
    bybitMainE (fun _ => .error ()) []
      [JLine.record "signal" ⟨"t0", "LONG", 100, 90, 110⟩] = .error () := rfl

/-- C8 amended: in the btc15m resolver a failed market fetch is caught
per-intent — the step is a no-op for that intent, for every state, and
the run continues exactly as if the intent were absent — while in the
bybit resolver the uncaught kline-fetch failure propagates: with an empty
loaded store, a failing fetch for the first of at most 200 signals aborts
the whole run. -/
theorem fetch_failure_policy :
    (∀ (api : String → Except Unit MarketInfo) (hashFn : String → Int)
        (st : BtcState) (r : Intent), api r.market_id = .error () →
        btcStep api hashFn st (BLine.parsed r) = st)
  ∧ (∀ (api : String → Except Unit MarketInfo) (hashFn : String → Int)
        (res0 : CStore) (pre post : List BLine) (r : Intent),
        api r.market_id = .error () →
        btcRun api hashFn res0 (pre ++ BLine.parsed r :: post)
          = btcRun api hashFn res0 (pre ++ post))
  ∧ (∀ (fetch : Sig → Except Unit (List Candle)) (s : Sig) (rest : List Sig),
        fetch s = .error () → rest.length ≤ 199 →
        bybitRunE fetch [] (s :: rest) = .error ()) := by
  refine ⟨btcStep_apiError, ?_, ?_⟩
  · intro api hashFn res0 pre post r h
    unfold btcRun
    rw [btcLoop_append, btcLoop_append]
    show btcLoop api hashFn post
        (btcStep api hashFn (btcLoop api hashFn pre _) (BLine.parsed r)) = _
    rw [btcStep_apiError api hashFn _ r h]
  · intro fetch s rest hf hlen
    unfold bybitRunE
    have hz : (s :: rest).length - 200 = 0 := by
      simp only [List.length_cons]
      omega
    rw [hz, List.drop_zero]
    have hp : processSigE fetch ([], []) s = .error () := by
      simp [processSigE, hf]
    simp only [bybitLoop, hp]

/-- Witness for C8's amended theorem: a concrete one-signal journal whose
kline fetch always fails aborts the bybit run. -/
theorem fetch_failure_policy_witness :
    bybitRunE (fun _ => .error ()) [] [⟨"t1", "SHORT", 50, 60, 40⟩]
      = .error () :=
  fetch_failure_policy.2.2 (fun _ => .error ()) ⟨"t1", "SHORT", 50, 60, 40⟩ []
    rfl (by simp)

/-- C10: each bybit run examines only the last 200 journal signals — the
run over any journal equals the run over just its final 200 signals, for
every fetch behavior and loaded store, so a signal older than the last
200 is never examined, resolved or written in that run. -/
theorem last200_window_only (fetch : Sig → Except Unit (List Candle))
    (res0 : BStore) (xs ys : List Sig) (hys : ys.length = 200) :
    bybitRunE fetch res0 (xs ++ ys) = bybitRunE fetch res0 ys := by
  unfold bybitRunE
  have h1 : (xs ++ ys).length - 200 = xs.length := by
    rw [List.length_append, hys, Nat.add_sub_cancel]
  have h2 : ys.length - 200 = 0 := by rw [hys, Nat.sub_self]
  rw [h1, h2, List.drop_zero, List.drop_left]

/-- Witness for C10: one stale signal in front of 200 fresh ones changes
nothing about the run. -/
theorem last200_window_only_witness :
    bybitRunE (fun _ => .ok []) []
        ([⟨"old", "LONG", 1, 1, 2⟩] ++ List.replicate 200 ⟨"new", "LONG", 3, 2, 4⟩)
      = bybitRunE (fun _ => .ok []) [] (List.replicate 200 ⟨"new", "LONG", 3, 2, 4⟩) :=
  last200_window_only (fun _ => .ok []) [] [⟨"old", "LONG", 1, 1, 2⟩]
    (List.replicate 200 ⟨"new", "LONG", 3, 2, 4⟩)
    (List.length_replicate 200 ⟨"new", "LONG", 3, 2, 4⟩)

theorem btcStep_extends (api : String → Except Unit MarketInfo)
    (hashFn : String → Int) (st : BtcState) (l : BLine) :
    ∃ dOuts dRes, (btcStep api hashFn st l).outs = st.outs ++ dOuts
      ∧ (btcStep api hashFn st l).resolved = st.resolved ++ dRes
      ∧ ∀ row ∈ dOuts, btcRowKey row ∉ st.resolved.map Prod.fst := by
  have triv : ∀ st' : BtcState, st' = st →
      ∃ dOuts dRes, st'.outs = st.outs ++ dOuts
        ∧ st'.resolved = st.resolved ++ dRes
        ∧ ∀ row ∈ dOuts, btcRowKey row ∉ st.resolved.map Prod.fst := by
    rintro _ rfl
    exact ⟨[], [], by simp, by simp, by simp⟩
  cases l with
  | blank => exact triv _ rfl
  | malformed => exact triv _ rfl
  | parsed r =>
      simp only [btcStep]
      split
      · exact triv _ rfl
      split
      · exact triv _ rfl
      split
      · exact triv _ rfl
      next hkey =>
        split
        · exact triv _ rfl
        split
        · exact triv _ rfl
        split
        · exact triv _ rfl
        split
        · refine ⟨_, _, rfl, rfl, ?_⟩
          intro row hrow
          rw [List.mem_singleton] at hrow
          subst hrow
          simpa [btcRowKey] using hkey
        · refine ⟨_, _, rfl, rfl, ?_⟩
          intro row hrow
          rw [List.mem_singleton] at hrow
          subst hrow
          simpa [btcRowKey] using hkey

theorem btcLoop_extends (api : String → Except Unit MarketInfo)
    (hashFn : String → Int) (lines : List BLine) (st : BtcState) :
    ∃ dOuts dRes, (btcLoop api hashFn lines st).outs = st.outs ++ dOuts
      ∧ (btcLoop api hashFn lines st).resolved = st.resolved ++ dRes
      ∧ ∀ row ∈ dOuts, btcRowKey row ∉ st.resolved.map Prod.fst := by
  induction lines generalizing st with
  | nil => exact ⟨[], [], by simp [btcLoop], by simp [btcLoop], by simp⟩
  | cons l rest ih =>
      obtain ⟨d0, r0, h1, h2, h3⟩ := btcStep_extends api hashFn st l
      obtain ⟨d1, r1, g1, g2, g3⟩ := ih (btcStep api hashFn st l)
      refine ⟨d0 ++ d1, r0 ++ r1, ?_, ?_, ?_⟩
      · show (btcLoop api hashFn rest (btcStep api hashFn st l)).outs = _
        rw [g1, h1, List.append_assoc]
      · show (btcLoop api hashFn rest (btcStep api hashFn st l)).resolved = _
        rw [g2, h2, List.append_assoc]
      · intro row hrow
        rcases List.mem_append.mp hrow with hr | hr
        · exact h3 row hr
        · have hg := g3 row hr
          rw [h2] at hg
          simp only [List.map_append, List.mem_append] at hg
          intro hmem
          exact hg (Or.inl hmem)

theorem processSigE_extends (fetch : Sig → Except Unit (List Candle))
    (acc acc' : List OutRow × BStore) (s : Sig)
    (h : processSigE fetch acc s = .ok acc') :
    ∃ d dR, acc'.1 = acc.1 ++ d ∧ acc'.2 = acc.2 ++ dR
      ∧ ∀ row ∈ d, rowKeyB row ∉ acc.2.map Prod.fst := by
  unfold processSigE at h
  split at h
  · cases h
    exact ⟨[], [], by simp, by simp, by simp⟩
  next hkey =>
    split at h
    · cases h
    · cases h
      refine ⟨_, _, rfl, rfl, ?_⟩
      intro row hrow
      rw [List.mem_singleton] at hrow
      subst hrow
      simpa [rowKeyB, mkOutRow, sigKey] using hkey

theorem bybitLoop_extends (fetch : Sig → Except Unit (List Candle))
    (sigs : List Sig) (acc : List OutRow × BStore)
    (outs : List OutRow) (store : BStore)
    (h : bybitLoop fetch sigs acc = .ok (outs, store)) :
    ∃ d dR, outs = acc.1 ++ d ∧ store = acc.2 ++ dR
      ∧ ∀ row ∈ d, rowKeyB row ∉ acc.2.map Prod.fst := by
  induction sigs generalizing acc with
  | nil =>
      simp only [bybitLoop] at h
      cases h
      exact ⟨[], [], by simp, by simp, by simp⟩
  | cons s rest ih =>
      simp only [bybitLoop] at h
      split at h
      · cases h
      next acc' heq =>
        obtain ⟨d0, r0, h1, h2, h3⟩ := processSigE_extends fetch acc acc' s heq
        obtain ⟨d1, r1, g1, g2, g3⟩ := ih acc' h
        refine ⟨d0 ++ d1, r0 ++ r1, ?_, ?_, ?_⟩
        · rw [g1, h1, List.append_assoc]
        · rw [g2, h2, List.append_assoc]
        · intro row hrow
          rcases List.mem_append.mp hrow with hr | hr
          · exact h3 row hr
          · have hg := g3 row hr
            rw [h2] at hg
            simp only [List.map_append, List.mem_append] at hg
            intro hmem
            exact hg (Or.inl hmem)

/-- C4: an intent key already present in the idempotency store is skipped
before any fetching, resolving or writing — the processing step is a
no-op for every market endpoint / bar fetch — in both resolver variants;
and run-wide, every Resolution Record a run writes belongs to a key that
was absent from the loaded store, so a second run against an unchanged
journal writes no new record for any key already stored. -/
theorem idempotent_key_skip :
    (∀ (api : String → Except Unit MarketInfo) (hashFn : String → Int)
        (st : BtcState) (r : Intent),
        (r.market_id ++ ":" ++ r.ts) ∈ st.resolved.map Prod.fst →
        btcStep api hashFn st (BLine.parsed r) = st)
  ∧ (∀ (fetch : Sig → Except Unit (List Candle)) (acc : List OutRow × BStore)
        (s : Sig), sigKey s ∈ acc.2.map Prod.fst →
        processSigE fetch acc s = .ok acc)
  ∧ (∀ (api : String → Except Unit MarketInfo) (hashFn : String → Int)
        (res0 : CStore) (lines : List BLine) (row : BtcRow),
        row ∈ (btcRun api hashFn res0 lines).outs →
        btcRowKey row ∉ res0.map Prod.fst)
  ∧ (∀ (fetch : Sig → Except Unit (List Candle)) (res0 : BStore)
        (sigs : List Sig) (outs : List OutRow) (store : BStore) (row : OutRow),
        bybitRunE fetch res0 sigs = .ok (outs, store) → row ∈ outs →
        rowKeyB row ∉ res0.map Prod.fst) := by
  refine ⟨?_, ?_, ?_, ?_⟩
  · intro api hashFn st r h
    by_cases h1 : (!(r.action == "PAPER_INTENT" || r.action == "TRADE_INTENT")) = true
    · simp [btcStep, h1]
    · by_cases h2 : (r.market_id == "") = true
      · simp [btcStep, h1, h2]
      · simp [btcStep, h1, h2, h]
  · intro fetch acc s h
    unfold processSigE
    rw [if_pos h]
  · intro api hashFn res0 lines row hrow
    obtain ⟨d, dR, h1, h2, h3⟩ := btcLoop_extends api hashFn lines ⟨[], res0⟩
    unfold btcRun at hrow
    rw [h1] at hrow
    simp only [List.nil_append] at hrow
    exact h3 row hrow
  · intro fetch res0 sigs outs store row hrun hrow
    unfold bybitRunE at hrun
    obtain ⟨d, dR, h1, h2, h3⟩ := bybitLoop_extends fetch
      (sigs.drop (sigs.length - 200)) ([], res0) outs store hrun
    rw [h1] at hrow
    simp only [List.nil_append] at hrow
    exact h3 row hrow

/-- Witness for C4: with the key of a concrete intent already in the
store, the btc15m step leaves the state unchanged even against a market
endpoint that would resolve it. -/
theorem idempotent_key_skip_witness :
    btcStep (fun _ => .ok ⟨"resolved", some true, 0⟩) (fun _ => 0)
      ⟨[], [("m1:t1", 0, 0)]⟩
      (BLine.parsed ⟨"t1", "m1", "PAPER_INTENT", "YES", 2/5, 10, 8/100, 8/10⟩)
      = ⟨[], [("m1:t1", 0, 0)]⟩ :=
  idempotent_key_skip.1 (fun _ => .ok ⟨"resolved", some true, 0⟩) (fun _ => 0)
    ⟨[], [("m1:t1", 0, 0)]⟩ ⟨"t1", "m1", "PAPER_INTENT", "YES", 2/5, 10, 8/100, 8/10⟩
    (by decide)

/-- C1 (refutation): an intent that fills but whose stop and target stay
un-hit in every available bar IS written as a terminal Resolution Record
(with outcome echoed as `"unfilled"`) and IS marked in the idempotency
store by the run — the source conflates pending with unfilled, so a later
run with more bars can never revisit it.  Concretely: a LONG signal with
entry 100, stop 90, target 110 against the single bar
(high 101, low 99): the bar fills the entry (index 0), hits neither stop
nor target, and the run still emits a record and a store entry. -/
theorem bybit_pending_written_terminally :
    findFill 100 [⟨0, 100, 101, 99, 100⟩] = some 0
  ∧ hitSL "LONG" 90 ⟨0, 100, 101, 99, 100⟩ = false
  ∧ hitTP "LONG" 110 ⟨0, 100, 101, 99, 100⟩ = false
  ∧ bybitRunE (fun _ => .ok [⟨0, 100, 101, 99, 100⟩]) []
      [⟨"t0", "LONG", 100, 90, 110⟩]
      = .ok ([⟨"t0", "LONG", 100, 90, 110, "unfilled", 0⟩],
             [(("t0", "LONG", 100, 90, 110), "unfilled")]) := by
  refine ⟨by norm_num [findFill, touched], by norm_num [hitSL],
    by norm_num [hitTP], ?_⟩
  have hout : resolveOutcome "LONG" 100 90 110 [⟨0, 100, 101, 99, 100⟩]
      = "unfilled" := by
    norm_num [resolveOutcome, findFill, touched, race, hitSL, hitTP]
  have hp : processSigE (fun _ => .ok [⟨0, 100, 101, 99, 100⟩]) ([], [])
      ⟨"t0", "LONG", 100, 90, 110⟩
      = .ok ([mkOutRow ⟨"t0", "LONG", 100, 90, 110⟩ "unfilled"],
             [(sigKey ⟨"t0", "LONG", 100, 90, 110⟩, "unfilled")]) := by
    simp [processSigE, hout]
  unfold bybitRunE
  rw [show List.length [(⟨"t0", "LONG", 100, 90, 110⟩ : Sig)] - 200 = 0 from rfl,
    List.drop_zero]
  simp only [bybitLoop, hp]
  simp [mkOutRow, sigKey]
